import Mathlib

/-!
Shallow embedding of the PDF-viewer distribution engine from src/main.rs:
Gaussian nodes, precision-weighted fusion (multiply_gaussians), the
product-recomputation pass over the id-keyed graph
(update_product_distributions), the deterministic samplers
(generate_points, generate_shading_polygon), viewport fitting
(auto_fit_view) and the session snapshot codec (save_session /
load_session).  Rust f64 arithmetic is embedded as ℝ; the HashMap of
distributions is embedded as an association list with HashMap get /
insert semantics (iteration order is irrelevant to the embedded pass
because the Rust code first collects all updates from the unmodified map
and only then applies them, keyed by distinct ids).
-/

/-- Embeds struct GaussianDistribution (src/main.rs lines 51-59). -/
structure GaussianDistribution where
  id : ℕ
  name : String
  mean : ℝ
  std_dev : ℝ
  parent_ids : List ℕ
  is_product : Bool

/-- Embeds struct PdfViewerApp (src/main.rs lines 20-29); the egui
PlotBounds value is embedded as a (min point, max point) pair. -/
structure PdfViewerApp where
  distributions : List (ℕ × GaussianDistribution)
  next_id : ℕ
  selected_for_multiplication : List ℕ
  plot_bounds : Option ((ℝ × ℝ) × (ℝ × ℝ))
  show_shading : Bool
  shading_opacity : ℝ
  show_std_markers : Bool

/-- Embeds struct SessionData (src/main.rs lines 31-38). -/
structure SessionData where
  distributions : List (ℕ × GaussianDistribution)
  next_id : ℕ
  show_shading : Bool
  shading_opacity : ℝ
  show_std_markers : Bool

/-- HashMap::get on the id-keyed distribution map, embedded on the
association list. -/
def hmGet (ds : List (ℕ × GaussianDistribution)) (k : ℕ) :
    Option GaussianDistribution :=
  (ds.find? (fun p => p.1 == k)).map (fun p => p.2)

/-- HashMap::insert on the id-keyed distribution map: replaces the entry
when the key is present, appends otherwise. -/
def hmInsert (ds : List (ℕ × GaussianDistribution)) (k : ℕ)
    (v : GaussianDistribution) : List (ℕ × GaussianDistribution) :=
  if (ds.find? (fun p => p.1 == k)).isSome then
    ds.map (fun p => if p.1 == k then (k, v) else p)
  else
    ds ++ [(k, v)]

/-- Embeds the statrs Normal pdf (the external statistics dependency used
by GaussianDistribution::evaluate): with d = (x - μ)/σ it computes
exp(-0.5·d·d) / (√(2π)·σ). -/
noncomputable def gaussianPdf (μ σ x : ℝ) : ℝ :=
  Real.exp (-(1 / 2) * ((x - μ) / σ) * ((x - μ) / σ)) /
    (Real.sqrt (2 * Real.pi) * σ)

/-- Embeds GaussianDistribution::evaluate (src/main.rs lines 124-127)
together with the statrs Normal::new parameter check: Normal::new fails
when std_dev ≤ 0 and the .unwrap() then panics; the panic is embedded as
none.  For a valid std_dev the statrs pdf value is returned. -/
noncomputable def evaluate (d : GaussianDistribution) (x : ℝ) : Option ℝ :=
  if d.std_dev ≤ 0 then none
  else some (gaussianPdf d.mean d.std_dev x)

/-- Embeds GaussianDistribution::multiply_gaussians (src/main.rs lines
100-122): empty input returns (0, 1); otherwise a single pass accumulates
the precision sum Σ 1/σᵢ² and the weighted mean sum Σ μᵢ/σᵢ², and the
result is (weighted_mean_sum / precision_sum, 1 / precision_sum). -/
noncomputable def multiply_gaussians (gaussians : List GaussianDistribution) :
    ℝ × ℝ :=
  if gaussians.isEmpty then (0, 1)
  else
    let sums := gaussians.foldl
      (fun acc g =>
        let precision := 1 / (g.std_dev * g.std_dev)
        (acc.1 + precision, acc.2 + g.mean * precision))
      ((0 : ℝ), (0 : ℝ))
    (sums.2 / sums.1, 1 / sums.1)

/-- Embeds GaussianDistribution::new_product (src/main.rs lines 86-98). -/
noncomputable def new_product (id : ℕ) (name : String) (parent_ids : List ℕ)
    (parents : List GaussianDistribution) : GaussianDistribution :=
  let mv := multiply_gaussians parents
  { id := id, name := name, mean := mv.1, std_dev := Real.sqrt mv.2,
    parent_ids := parent_ids, is_product := true }

/-- Embeds GaussianDistribution::generate_points (src/main.rs lines
129-137).  The loop body calls self.evaluate, whose σ-validity check is
embedded separately in `evaluate`; here the σ > 0 branch (the statrs pdf)
is inlined, which agrees with the code on every σ > 0 input.  The usize
subtraction num_points - 1 is embedded as ℕ truncated subtraction; for
num_points = 1 the Rust code divides by (1-1) as f64 = 0.0, producing a
NaN x-coordinate — ℝ division by zero yields 0 instead, and either way
the function returns a point list without signaling any error. -/
noncomputable def generate_points (d : GaussianDistribution)
    (x_min x_max : ℝ) (num_points : ℕ) : List (ℝ × ℝ) :=
  (List.range num_points).map (fun (i : ℕ) =>
    let x := x_min + (x_max - x_min) * (i : ℝ) / ((num_points - 1 : ℕ) : ℝ)
    (x, gaussianPdf d.mean d.std_dev x))

/-- Embeds GaussianDistribution::generate_shading_polygon (src/main.rs
lines 139-166): bottom-left corner, then for num_points = 1 a single
midpoint sample, for num_points > 1 samples at
x_min + (x_max - x_min)·i/(num_points + 1) for i = 1..num_points, then
the bottom-right corner.  As in `generate_points`, the σ > 0 branch of
evaluate (the statrs pdf) is inlined. -/
noncomputable def generate_shading_polygon (d : GaussianDistribution)
    (x_min x_max : ℝ) (num_points : ℕ) : List (ℝ × ℝ) :=
  let curve : List (ℝ × ℝ) :=
    if num_points = 1 then
      [((x_min + x_max) / 2,
        gaussianPdf d.mean d.std_dev ((x_min + x_max) / 2))]
    else if 1 < num_points then
      (List.range' 1 num_points).map (fun (i : ℕ) =>
        (x_min + (x_max - x_min) * (i : ℝ) / ((num_points : ℝ) + 1),
         gaussianPdf d.mean d.std_dev
           (x_min + (x_max - x_min) * (i : ℝ) / ((num_points : ℝ) + 1))))
    else []
  ((x_min, (0 : ℝ)) :: curve) ++ [(x_max, 0)]

/-- The per-node body of the update-collection loop of
PdfViewerApp::update_product_distributions (src/main.rs lines 208-220):
for a product node with a non-empty parent list whose parent ids all
resolve against the map `ds`, produce (id, new mean, new std_dev). -/
noncomputable def collect_fn (ds : List (ℕ × GaussianDistribution))
    (p : ℕ × GaussianDistribution) : Option (ℕ × ℝ × ℝ) :=
  if p.2.is_product && !p.2.parent_ids.isEmpty then
    let parent_refs := p.2.parent_ids.filterMap (hmGet ds)
    if parent_refs.length = p.2.parent_ids.length then
      let mv := multiply_gaussians parent_refs
      some (p.1, mv.1, Real.sqrt mv.2)
    else none
  else none

/-- The update-collection phase of
PdfViewerApp::update_product_distributions (src/main.rs lines 206-220):
run `collect_fn` over every entry of the unmodified map. -/
noncomputable def collect_updates (ds : List (ℕ × GaussianDistribution)) :
    List (ℕ × ℝ × ℝ) :=
  ds.filterMap (collect_fn ds)

/-- The effect of one recorded update on one map entry: overwrite
mean / std_dev when the ids match, leave the entry alone otherwise. -/
def touch_entry (u : ℕ × ℝ × ℝ) (p : ℕ × GaussianDistribution) :
    ℕ × GaussianDistribution :=
  if p.1 == u.1 then (p.1, { p.2 with mean := u.2.1, std_dev := u.2.2 })
  else p

/-- The update-application phase of
PdfViewerApp::update_product_distributions (src/main.rs lines 222-227):
get_mut on the recorded id and overwrite mean / std_dev. -/
def apply_update (ds : List (ℕ × GaussianDistribution)) (u : ℕ × ℝ × ℝ) :
    List (ℕ × GaussianDistribution) :=
  ds.map (touch_entry u)

/-- Sequential application of a list of recorded updates to one entry. -/
def touch_all (us : List (ℕ × ℝ × ℝ)) (p : ℕ × GaussianDistribution) :
    ℕ × GaussianDistribution :=
  us.foldl (fun q u => touch_entry u q) p

/-- Embeds PdfViewerApp::update_product_distributions (src/main.rs lines
205-228) on the distribution map: collect all updates from the unmodified
map, then apply them. -/
noncomputable def update_products (ds : List (ℕ × GaussianDistribution)) :
    List (ℕ × GaussianDistribution) :=
  (collect_updates ds).foldl apply_update ds

/-- Embeds PdfViewerApp::update_product_distributions at the App level. -/
noncomputable def update_product_distributions (app : PdfViewerApp) :
    PdfViewerApp :=
  { app with distributions := update_products app.distributions }

/-- The per-entry effect of one recomputation pass, used to characterise
`update_products`: a product node with a non-empty, fully resolving
parent list gets the fused mean / std_dev, every other node is left
unchanged. -/
noncomputable def recompute_entry (ds : List (ℕ × GaussianDistribution))
    (d : GaussianDistribution) : GaussianDistribution :=
  if d.is_product && !d.parent_ids.isEmpty then
    let parent_refs := d.parent_ids.filterMap (hmGet ds)
    if parent_refs.length = d.parent_ids.length then
      let mv := multiply_gaussians parent_refs
      { d with mean := mv.1, std_dev := Real.sqrt mv.2 }
    else d
  else d

/-- Embeds the Multiply Selected handler of PdfViewerApp::update
(src/main.rs lines 371-391): with at least two selected ids of which at
least two resolve, insert a new product over the resolved parents under a
fresh id and clear the selection; otherwise do nothing. -/
noncomputable def multiply_selected (app : PdfViewerApp) : PdfViewerApp :=
  if 2 ≤ app.selected_for_multiplication.length then
    let parent_refs :=
      app.selected_for_multiplication.filterMap (hmGet app.distributions)
    if 2 ≤ parent_refs.length then
      let product := new_product app.next_id
        ("Product " ++ toString (app.next_id + 1))
        app.selected_for_multiplication parent_refs
      { app with
          distributions := hmInsert app.distributions app.next_id product,
          next_id := app.next_id + 1,
          selected_for_multiplication := [] }
    else app
  else app

/-- Embeds PdfViewerApp::auto_fit_view (src/main.rs lines 238-265).  The
f64 folds initialised at +∞ / -∞ compute, for the (non-empty) map reached
past the early return, the minimum / maximum of the nodes' means; ℝ has
no infinities, so they are embedded as folds over the tail started at the
head's value — identical on every non-empty input.  The max_std_dev fold
initialised at 0.0 is kept literally. -/
noncomputable def auto_fit_view (app : PdfViewerApp) : PdfViewerApp :=
  match app.distributions with
  | [] => app
  | d0 :: rest =>
    let min_mean := rest.foldl (fun a p => min a p.2.mean) d0.2.mean
    let max_mean := rest.foldl (fun a p => max a p.2.mean) d0.2.mean
    let max_std_dev := (d0 :: rest).foldl (fun a p => max a p.2.std_dev) 0
    let margin := 4 * max_std_dev
    let x_min := min_mean - margin
    let x_max := max_mean + margin
    let y_max := 1 / (max_std_dev * Real.sqrt (2 * Real.pi)) * 1.1
    { app with plot_bounds := some ((x_min, 0), (x_max, y_max)) }

/-- Embeds PdfViewerApp::save_session (src/main.rs lines 267-278) up to
the wire: the function clones the five session fields into a SessionData
record and serialises it with serde_json.  The serde_json text layer is
an external dependency whose round-trip on this record type is lossless
(string / numeric / boolean / list fields only); it is embedded as the
identity on SessionData, so the codec is embedded as the record itself. -/
def save_session (app : PdfViewerApp) : SessionData :=
  { distributions := app.distributions
    next_id := app.next_id
    show_shading := app.show_shading
    shading_opacity := app.shading_opacity
    show_std_markers := app.show_std_markers }

/-- Embeds PdfViewerApp::load_session (src/main.rs lines 280-292) past a
successful parse: every session field is assigned into the app and the
fusion selection is cleared. -/
def load_session (app : PdfViewerApp) (sd : SessionData) : PdfViewerApp :=
  { app with
      distributions := sd.distributions
      next_id := sd.next_id
      show_shading := sd.show_shading
      shading_opacity := sd.shading_opacity
      show_std_markers := sd.show_std_markers
      selected_for_multiplication := [] }

/-- A standard-normal leaf node used as a concrete test input. -/
noncomputable def testLeaf : GaussianDistribution :=
  { id := 1, name := "Test", mean := 0, std_dev := 1,
    parent_ids := [], is_product := false }

/-- A leaf node with negative std_dev, a structurally representable but
invalid parameterisation, used as a concrete test input. -/
noncomputable def testBadLeaf : GaussianDistribution :=
  { id := 9, name := "Bad", mean := 0, std_dev := -1,
    parent_ids := [], is_product := false }

/-- Leaf node with mean 2, std_dev 1, used in the recomputation chain. -/
noncomputable def chainLeaf : GaussianDistribution :=
  { id := 0, name := "L", mean := 2, std_dev := 1,
    parent_ids := [], is_product := false }

/-- Product node over the leaf (id 0), stored with stale values. -/
noncomputable def chainMid : GaussianDistribution :=
  { id := 1, name := "P1", mean := 0, std_dev := 1,
    parent_ids := [0], is_product := true }

/-- Product node over the mid product (id 1), stored with stale values. -/
noncomputable def chainTop : GaussianDistribution :=
  { id := 2, name := "P2", mean := 0, std_dev := 1,
    parent_ids := [1], is_product := true }

/-- App state holding the leaf → product → product chain. -/
noncomputable def chainApp : PdfViewerApp :=
  { distributions := [(0, chainLeaf), (1, chainMid), (2, chainTop)],
    next_id := 3, selected_for_multiplication := [],
    plot_bounds := none, show_shading := true,
    shading_opacity := 0.3, show_std_markers := true }

/-- App state holding a single standard-normal leaf. -/
noncomputable def leafApp : PdfViewerApp :=
  { distributions := [(0, testLeaf)], next_id := 1,
    selected_for_multiplication := [], plot_bounds := none,
    show_shading := true, shading_opacity := 0.3, show_std_markers := true }

/-- Product node whose single recorded parent id 99 is absent from every
map it is placed in (a dangling edge). -/
noncomputable def danglingProd : GaussianDistribution :=
  { id := 1, name := "P", mean := 5, std_dev := 3,
    parent_ids := [99], is_product := true }

/-- App state holding only the dangling-parent product. -/
noncomputable def danglingApp : PdfViewerApp :=
  { distributions := [(1, danglingProd)], next_id := 2,
    selected_for_multiplication := [], plot_bounds := none,
    show_shading := true, shading_opacity := 0.3, show_std_markers := true }

/-- Node flagged as a product but with an empty parent list. -/
noncomputable def orphanProd : GaussianDistribution :=
  { id := 2, name := "Q", mean := 7, std_dev := 2,
    parent_ids := [], is_product := true }

/-- App state holding only the empty-parent product. -/
noncomputable def orphanApp : PdfViewerApp :=
  { distributions := [(2, orphanProd)], next_id := 3,
    selected_for_multiplication := [], plot_bounds := none,
    show_shading := true, shading_opacity := 0.3, show_std_markers := true }

/-- Leaf node N(0, 1) used by the fusion-handler test state. -/
noncomputable def fuseLeafA : GaussianDistribution :=
  { id := 0, name := "A", mean := 0, std_dev := 1,
    parent_ids := [], is_product := false }

/-- Leaf node N(2, 1) used by the fusion-handler test state. -/
noncomputable def fuseLeafB : GaussianDistribution :=
  { id := 1, name := "B", mean := 2, std_dev := 1,
    parent_ids := [], is_product := false }

/-- App state with two leaves selected for multiplication. -/
noncomputable def fuseApp : PdfViewerApp :=
  { distributions := [(0, fuseLeafA), (1, fuseLeafB)], next_id := 2,
    selected_for_multiplication := [0, 1], plot_bounds := none,
    show_shading := true, shading_opacity := 0.3, show_std_markers := true }

/-! ### Helper lemmas about the association-list HashMap embedding -/

/-- Looking a key up in an entry-wise image of the map that preserves the
keys finds the image of the entry the key found before. -/
theorem hmGet_map (ds : List (ℕ × GaussianDistribution))
    (f : ℕ × GaussianDistribution → GaussianDistribution) (k : ℕ) :
    hmGet (ds.map (fun p => (p.1, f p))) k
      = (ds.find? (fun p => p.1 == k)).map (fun p => f p) := by
  unfold hmGet
  rw [show (fun p : ℕ × GaussianDistribution => p.1 == k)
        = (fun p : ℕ × GaussianDistribution => p.1 == k)
            ∘ (fun p : ℕ × GaussianDistribution => (p.1, f p)) from rfl,
      List.find?_map, Option.map_map]
  rfl

/-- Unpacking a successful lookup into the found entry. -/
theorem hmGet_eq_some (ds : List (ℕ × GaussianDistribution)) (k : ℕ)
    (d : GaussianDistribution) (h : hmGet ds k = some d) :
    ∃ p, ds.find? (fun p => p.1 == k) = some p ∧ p.1 = k ∧ p.2 = d ∧ p ∈ ds := by
  unfold hmGet at h
  rcases Option.map_eq_some'.mp h with ⟨p, hfind, hsnd⟩
  have hkey : p.1 = k := by
    have := List.find?_some hfind
    exact eq_of_beq this
  exact ⟨p, hfind, hkey, hsnd, List.mem_of_find?_eq_some hfind⟩

/-- Dropping an element of the list to `none` makes filterMap strictly
shorter. -/
theorem length_filterMap_lt {α β : Type} (f : α → Option β) (l : List α)
    (a : α) (ha : a ∈ l) (hfa : f a = none) :
    (l.filterMap f).length < l.length := by
  induction l with
  | nil => cases ha
  | cons b t ih =>
      cases hfb : f b with
      | none =>
          rw [List.filterMap_cons_none hfb]
          exact Nat.lt_succ_of_le (List.length_filterMap_le f t)
      | some c =>
          rw [List.filterMap_cons_some hfb]
          have hat : a ∈ t := by
            rcases List.mem_cons.mp ha with h | h
            · subst h; rw [hfa] at hfb; cases hfb
            · exact h
          simpa using Nat.succ_lt_succ (ih hat)

/-! ### Characterising one recomputation pass -/

/-- Applying the collected updates in sequence is the same as running all
of them over each entry independently. -/
theorem foldl_apply_update (us : List (ℕ × ℝ × ℝ)) :
    ∀ ds : List (ℕ × GaussianDistribution),
      us.foldl apply_update ds = ds.map (touch_all us) := by
  induction us with
  | nil =>
      intro ds
      simp only [List.foldl_nil]
      rw [show touch_all ([] : List (ℕ × ℝ × ℝ)) = fun p => p from rfl]
      simp
  | cons u t ih =>
      intro ds
      rw [List.foldl_cons, ih (apply_update ds u)]
      unfold apply_update
      rw [List.map_map]
      rfl

/-- An entry whose key no update mentions is left alone. -/
theorem touch_all_skip (us : List (ℕ × ℝ × ℝ))
    (p : ℕ × GaussianDistribution)
    (h : p.1 ∉ us.map (fun u => u.1)) : touch_all us p = p := by
  induction us with
  | nil => rfl
  | cons u t ih =>
      have hne : p.1 ≠ u.1 := by
        intro he
        exact h (by simp [he])
      have hstep : touch_entry u p = p := by
        unfold touch_entry
        simp [hne]
      show touch_all t (touch_entry u p) = p
      rw [hstep]
      exact ih (fun hm => h (by simp at hm ⊢; exact Or.inr hm))

/-- With pairwise distinct update keys, an entry matching one update ends
up carrying exactly that update's mean and std_dev. -/
theorem touch_all_hit (us : List (ℕ × ℝ × ℝ))
    (hnd : (us.map (fun u => u.1)).Nodup)
    (u : ℕ × ℝ × ℝ) (hu : u ∈ us) (p : ℕ × GaussianDistribution)
    (hk : p.1 = u.1) :
    touch_all us p = (p.1, { p.2 with mean := u.2.1, std_dev := u.2.2 }) := by
  induction us with
  | nil => cases hu
  | cons v t ih =>
      rw [List.map_cons, List.nodup_cons] at hnd
      rcases List.mem_cons.mp hu with h | h
      · subst h
        have hstep : touch_entry u p = (p.1, { p.2 with mean := u.2.1, std_dev := u.2.2 }) := by
          unfold touch_entry
          simp [hk]
        show touch_all t (touch_entry u p) = _
        rw [hstep]
        apply touch_all_skip
        simpa [hk] using hnd.1
      · have hvne : p.1 ≠ v.1 := by
          intro he
          apply hnd.1
          rw [← he, hk]
          exact List.mem_map.mpr ⟨u, h, rfl⟩
        have hstep : touch_entry v p = p := by
          unfold touch_entry
          simp [hvne]
        show touch_all t (touch_entry v p) = _
        rw [hstep]
        exact ih hnd.2 h

/-- `collect_fn` records the node's own id. -/
theorem collect_fn_fst (ds : List (ℕ × GaussianDistribution))
    (p : ℕ × GaussianDistribution) (u : ℕ × ℝ × ℝ)
    (h : collect_fn ds p = some u) : u.1 = p.1 := by
  unfold collect_fn at h
  split at h
  · dsimp only at h
    split at h
    · cases h
      rfl
    · cases h
  · cases h

/-- `collect_fn` succeeds exactly on product nodes with a non-empty,
fully resolving parent list, and then records the fused values. -/
theorem collect_fn_eq_some (ds : List (ℕ × GaussianDistribution))
    (p : ℕ × GaussianDistribution)
    (hg : (p.2.is_product && !p.2.parent_ids.isEmpty) = true)
    (hlen : (p.2.parent_ids.filterMap (hmGet ds)).length
              = p.2.parent_ids.length) :
    collect_fn ds p
      = some (p.1,
          (multiply_gaussians (p.2.parent_ids.filterMap (hmGet ds))).1,
          Real.sqrt
            (multiply_gaussians (p.2.parent_ids.filterMap (hmGet ds))).2) := by
  unfold collect_fn
  rw [if_pos hg]
  simp only [hlen, if_pos]

/-- `collect_fn` skips non-product and empty-parent nodes. -/
theorem collect_fn_eq_none_of_guard (ds : List (ℕ × GaussianDistribution))
    (p : ℕ × GaussianDistribution)
    (hg : ¬ (p.2.is_product && !p.2.parent_ids.isEmpty) = true) :
    collect_fn ds p = none := by
  unfold collect_fn
  rw [if_neg hg]

/-- `collect_fn` skips nodes with an unresolvable parent. -/
theorem collect_fn_eq_none_of_dangling (ds : List (ℕ × GaussianDistribution))
    (p : ℕ × GaussianDistribution)
    (hlen : ¬ (p.2.parent_ids.filterMap (hmGet ds)).length
              = p.2.parent_ids.length) :
    collect_fn ds p = none := by
  unfold collect_fn
  split
  · simp only [hlen, if_neg, if_false]
  · rfl

/-- The ids of a filterMap that preserves first components form a sublist
of the original ids. -/
theorem filterMap_fst_sublist (F : ℕ × GaussianDistribution → Option (ℕ × ℝ × ℝ))
    (hF : ∀ p u, F p = some u → u.1 = p.1) :
    ∀ ds : List (ℕ × GaussianDistribution),
      ((ds.filterMap F).map (fun u => u.1)).Sublist
        (ds.map (fun p => p.1)) := by
  intro ds
  induction ds with
  | nil => simp
  | cons p t ih =>
      cases hFp : F p with
      | none =>
          rw [List.filterMap_cons_none hFp, List.map_cons]
          exact ih.cons p.1
      | some u =>
          rw [List.filterMap_cons_some hFp, List.map_cons, List.map_cons,
              hF p u hFp]
          exact ih.cons₂ p.1

/-- With pairwise distinct map keys, the collected update ids are also
pairwise distinct. -/
theorem collect_updates_ids_nodup (ds : List (ℕ × GaussianDistribution))
    (hnd : (ds.map (fun p => p.1)).Nodup) :
    ((collect_updates ds).map (fun u => u.1)).Nodup :=
  ((filterMap_fst_sublist (collect_fn ds) (collect_fn_fst ds) ds).nodup hnd)

/-- With pairwise distinct map keys, a node on which `collect_fn` fails
has no update recorded against its id. -/
theorem collect_none_not_mem (ds : List (ℕ × GaussianDistribution))
    (hnd : (ds.map (fun p => p.1)).Nodup)
    (p : ℕ × GaussianDistribution) (hp : p ∈ ds)
    (hnone : collect_fn ds p = none) :
    p.1 ∉ (collect_updates ds).map (fun u => u.1) := by
  intro hmem
  rcases List.mem_map.mp hmem with ⟨u, hu, hufst⟩
  rcases List.mem_filterMap.mp hu with ⟨q, hq, hcq⟩
  have hqfst : q.1 = p.1 := by rw [← (collect_fn_fst ds q u hcq), hufst]
  have : q = p := List.inj_on_of_nodup_map hnd hq hp hqfst
  rw [this, hnone] at hcq
  cases hcq

/-- One recomputation pass, entry-wise: with pairwise distinct keys, the
collect-then-apply pass rewrites every entry by `recompute_entry` against
the unmodified map. -/
theorem update_products_eq_map (ds : List (ℕ × GaussianDistribution))
    (hnd : (ds.map (fun p => p.1)).Nodup) :
    update_products ds
      = ds.map (fun p => (p.1, recompute_entry ds p.2)) := by
  unfold update_products
  rw [foldl_apply_update]
  apply List.map_congr_left
  intro p hp
  by_cases hg : (p.2.is_product && !p.2.parent_ids.isEmpty) = true
  · by_cases hlen : (p.2.parent_ids.filterMap (hmGet ds)).length
        = p.2.parent_ids.length
    · have hmem : (p.1,
          (multiply_gaussians (p.2.parent_ids.filterMap (hmGet ds))).1,
          Real.sqrt
            (multiply_gaussians (p.2.parent_ids.filterMap (hmGet ds))).2)
          ∈ collect_updates ds :=
        List.mem_filterMap.mpr ⟨p, hp, collect_fn_eq_some ds p hg hlen⟩
      rw [touch_all_hit (collect_updates ds) (collect_updates_ids_nodup ds hnd)
            _ hmem p rfl]
      unfold recompute_entry
      rw [if_pos hg]
      simp only [hlen, if_pos]
    · rw [touch_all_skip _ p (collect_none_not_mem ds hnd p hp
          (collect_fn_eq_none_of_dangling ds p hlen))]
      unfold recompute_entry
      rw [if_pos hg]
      simp only [hlen, if_neg, if_false]
  · rw [touch_all_skip _ p (collect_none_not_mem ds hnd p hp
        (collect_fn_eq_none_of_guard ds p hg))]
    unfold recompute_entry
    rw [if_neg hg]

/-- Lookup after one recomputation pass. -/
theorem hmGet_update_products (ds : List (ℕ × GaussianDistribution))
    (hnd : (ds.map (fun p => p.1)).Nodup) (k : ℕ) :
    hmGet (update_products ds) k
      = (ds.find? (fun p => p.1 == k)).map
          (fun p => recompute_entry ds p.2) := by
  rw [update_products_eq_map ds hnd, hmGet_map]

/-- The keys of the map are unchanged by one recomputation pass. -/
theorem update_products_keys (ds : List (ℕ × GaussianDistribution))
    (hnd : (ds.map (fun p => p.1)).Nodup) :
    (update_products ds).map (fun p => p.1) = ds.map (fun p => p.1) := by
  rw [update_products_eq_map ds hnd, List.map_map]
  rfl

/-- Parent resolution is unchanged by a recomputation pass whenever every
resolvable parent in the list is a non-product node: the pass rewrites
only product entries, so each such lookup returns the identical node. -/
theorem refs_stable (ds : List (ℕ × GaussianDistribution))
    (hnd : (ds.map (fun p => p.1)).Nodup) (pids : List ℕ)
    (hleafp : ∀ pid ∈ pids, ∀ q, hmGet ds pid = some q →
      q.is_product = false) :
    pids.filterMap (hmGet (update_products ds))
      = pids.filterMap (hmGet ds) := by
  apply List.filterMap_congr
  intro pid hpid
  rw [hmGet_update_products ds hnd pid]
  cases hf : ds.find? (fun p => p.1 == pid) with
  | none => simp [hmGet, hf]
  | some p =>
      have hq : hmGet ds pid = some p.2 := by simp [hmGet, hf]
      have hnp : p.2.is_product = false := hleafp pid hpid p.2 hq
      have hfix : recompute_entry ds p.2 = p.2 := by
        unfold recompute_entry
        rw [if_neg (by simp [hnp])]
      simp [hmGet, hf, hfix]

/-- A node already rewritten by the pass is a fixed point of the pass
re-run on the updated map, provided its resolvable parents (when it is a
product) are all non-product nodes. -/
theorem recompute_entry_fixed (ds : List (ℕ × GaussianDistribution))
    (hnd : (ds.map (fun p => p.1)).Nodup) (d : GaussianDistribution)
    (hd : d.is_product = true → ∀ pid ∈ d.parent_ids, ∀ q,
      hmGet ds pid = some q → q.is_product = false) :
    recompute_entry (update_products ds) (recompute_entry ds d)
      = recompute_entry ds d := by
  by_cases hg : (d.is_product && !d.parent_ids.isEmpty) = true
  · have hprod : d.is_product = true := ((Bool.and_eq_true _ _).mp hg).1
    have hrefs := refs_stable ds hnd d.parent_ids (hd hprod)
    by_cases hlen : (d.parent_ids.filterMap (hmGet ds)).length
        = d.parent_ids.length
    · simp [recompute_entry, hg, hrefs, hlen]
    · simp [recompute_entry, hg, hrefs, hlen]
  · simp [recompute_entry, hg]

/-- List-level idempotence of the recomputation pass on graphs whose
products draw only on non-product parents. -/
theorem update_products_idem (ds : List (ℕ × GaussianDistribution))
    (hnd : (ds.map (fun p => p.1)).Nodup)
    (hleaf : ∀ p ∈ ds, p.2.is_product = true →
      ∀ pid ∈ p.2.parent_ids, ∀ q, hmGet ds pid = some q →
        q.is_product = false) :
    update_products (update_products ds) = update_products ds := by
  have hnd2 : ((update_products ds).map (fun p => p.1)).Nodup := by
    rw [update_products_keys ds hnd]
    exact hnd
  rw [update_products_eq_map (update_products ds) hnd2]
  have hpt : ∀ q ∈ update_products ds,
      (q.1, recompute_entry (update_products ds) q.2) = q := by
    intro q hq
    rw [update_products_eq_map ds hnd] at hq
    rcases List.mem_map.mp hq with ⟨p, hp, rfl⟩
    dsimp only
    congr 1
    exact recompute_entry_fixed ds hnd p.2 (fun hprod => hleaf p hp hprod)
  calc (update_products ds).map
        (fun q => (q.1, recompute_entry (update_products ds) q.2))
      = (update_products ds).map (fun q => q) := List.map_congr_left hpt
    _ = update_products ds := by simp

/-- C2 (amended): recomputation is idempotent on every graph state with
pairwise distinct keys in which no product node's parent id resolves to
another product node (single-level fusion graphs): running
update_product_distributions twice with the leaf nodes unchanged in
between gives exactly the state after the first run.  For chained
products the single pass propagates only one hop, so this hypothesis is
necessary (see the counterexample). -/
theorem C2_recompute_idempotent (app : PdfViewerApp)
    (hnd : (app.distributions.map (fun p => p.1)).Nodup)
    (hleaf : ∀ p ∈ app.distributions, p.2.is_product = true →
      ∀ pid ∈ p.2.parent_ids, ∀ q,
        hmGet app.distributions pid = some q → q.is_product = false) :
    update_product_distributions (update_product_distributions app)
      = update_product_distributions app := by
  unfold update_product_distributions
  dsimp only
  rw [update_products_idem app.distributions hnd hleaf]

/-- Witness for C2 (amended) at a concrete single-leaf state. -/
theorem C2_recompute_idempotent_witness :
    ((leafApp.distributions.map (fun p => p.1)).Nodup ∧
     (∀ p ∈ leafApp.distributions, p.2.is_product = true →
       ∀ pid ∈ p.2.parent_ids, ∀ q,
         hmGet leafApp.distributions pid = some q →
           q.is_product = false)) ∧
    update_product_distributions (update_product_distributions leafApp)
      = update_product_distributions leafApp := by
  refine ⟨⟨by simp [leafApp], ?_⟩, ?_⟩
  · intro p hp hprod
    simp [leafApp] at hp
    rw [hp] at hprod
    simp [testLeaf] at hprod
  · refine C2_recompute_idempotent leafApp (by simp [leafApp]) ?_
    intro p hp hprod
    simp [leafApp] at hp
    rw [hp] at hprod
    simp [testLeaf] at hprod

/-- C3: a product node with a dangling parent id (absent from the map) is
left with exactly its stored mean and std_dev by the recomputation pass,
and stays in the map; the pass is a total function, so it cannot fail or
panic. -/
theorem C3_dangling_parent_untouched (app : PdfViewerApp)
    (hnd : (app.distributions.map (fun p => p.1)).Nodup)
    (k pid : ℕ) (d : GaussianDistribution)
    (hget : hmGet app.distributions k = some d)
    (hprod : d.is_product = true)
    (hpid : pid ∈ d.parent_ids)
    (hdangling : hmGet app.distributions pid = none) :
    hmGet (update_product_distributions app).distributions k = some d := by
  rcases hmGet_eq_some _ _ _ hget with ⟨p, hfind, hk, hsnd, hmem⟩
  have hlt : (d.parent_ids.filterMap (hmGet app.distributions)).length
      < d.parent_ids.length :=
    length_filterMap_lt _ _ pid hpid hdangling
  show hmGet (update_products app.distributions) k = some d
  rw [hmGet_update_products app.distributions hnd k, hfind]
  have hfix : recompute_entry app.distributions p.2 = d := by
    rw [hsnd]
    unfold recompute_entry
    split
    · dsimp only
      rw [if_neg (Nat.ne_of_lt hlt)]
    · rfl
  simp [hfix]

/-- Witness for C3 at a concrete state holding a product whose only
recorded parent id is absent. -/
theorem C3_dangling_parent_untouched_witness :
    ((danglingApp.distributions.map (fun p => p.1)).Nodup ∧
     hmGet danglingApp.distributions 1 = some danglingProd ∧
     danglingProd.is_product = true ∧
     99 ∈ danglingProd.parent_ids ∧
     hmGet danglingApp.distributions 99 = none) ∧
    hmGet (update_product_distributions danglingApp).distributions 1
      = some danglingProd :=
  ⟨⟨by simp [danglingApp], rfl, rfl, by simp [danglingProd], rfl⟩,
   C3_dangling_parent_untouched danglingApp (by simp [danglingApp]) 1 99
     danglingProd rfl rfl (by simp [danglingProd]) rfl⟩

/-- C10: a node flagged is_product with an empty parent_ids list is
skipped entirely by the recomputation pass — its stored mean and std_dev
are exactly unchanged, in particular it is not reset to the empty-fusion
default (0, 1). -/
theorem C10_empty_parents_untouched (app : PdfViewerApp)
    (hnd : (app.distributions.map (fun p => p.1)).Nodup)
    (k : ℕ) (d : GaussianDistribution)
    (hget : hmGet app.distributions k = some d)
    (hprod : d.is_product = true)
    (hpar : d.parent_ids = []) :
    hmGet (update_product_distributions app).distributions k = some d := by
  rcases hmGet_eq_some _ _ _ hget with ⟨p, hfind, hk, hsnd, hmem⟩
  show hmGet (update_products app.distributions) k = some d
  rw [hmGet_update_products app.distributions hnd k, hfind]
  have hfix : recompute_entry app.distributions p.2 = d := by
    rw [hsnd]
    unfold recompute_entry
    rw [if_neg (by simp [hpar])]
  simp [hfix]

/-- Witness for C10 at a concrete state holding an empty-parent product
with mean 7 and std_dev 2 (values visibly different from (0, 1)). -/
theorem C10_empty_parents_untouched_witness :
    ((orphanApp.distributions.map (fun p => p.1)).Nodup ∧
     hmGet orphanApp.distributions 2 = some orphanProd ∧
     orphanProd.is_product = true ∧
     orphanProd.parent_ids = []) ∧
    hmGet (update_product_distributions orphanApp).distributions 2
      = some orphanProd :=
  ⟨⟨by simp [orphanApp], rfl, rfl, rfl⟩,
   C10_empty_parents_untouched orphanApp (by simp [orphanApp]) 2
     orphanProd rfl rfl rfl⟩

/-- The accumulator loop of multiply_gaussians computes the precision sum
and the precision-weighted mean sum. -/
theorem multiply_fold_sums (gs : List GaussianDistribution) :
    ∀ a b : ℝ,
      gs.foldl (fun acc g =>
        let precision := 1 / (g.std_dev * g.std_dev)
        (acc.1 + precision, acc.2 + g.mean * precision)) (a, b)
      = (a + (gs.map (fun g => 1 / (g.std_dev * g.std_dev))).sum,
         b + (gs.map (fun g => g.mean * (1 / (g.std_dev * g.std_dev)))).sum) := by
  induction gs with
  | nil =>
      intro a b
      simp
  | cons g t ih =>
      intro a b
      rw [List.foldl_cons]
      dsimp only
      rw [ih]
      rw [List.map_cons, List.map_cons, List.sum_cons, List.sum_cons]
      apply Prod.ext <;> dsimp only <;> ring

/-- C1: multiply_gaussians returns exactly (0, 1) on the empty parent
list, and on a non-empty list of parents with positive std_dev it returns
mean = Σ(μᵢ·pᵢ)/Σ pᵢ and variance = 1/Σ pᵢ with precision pᵢ = 1/σᵢ². -/
theorem C1_multiply_gaussians_spec (gs : List GaussianDistribution)
    (hσ : ∀ g ∈ gs, 0 < g.std_dev) :
    (gs = [] → multiply_gaussians gs = (0, 1)) ∧
    (gs ≠ [] →
      multiply_gaussians gs
        = ((gs.map (fun g => g.mean * (1 / g.std_dev ^ 2))).sum
             / (gs.map (fun g => 1 / g.std_dev ^ 2)).sum,
           1 / (gs.map (fun g => 1 / g.std_dev ^ 2)).sum)) := by
  constructor
  · intro h
    subst h
    rfl
  · intro hne
    unfold multiply_gaussians
    rw [if_neg (by simpa using hne)]
    dsimp only
    rw [multiply_fold_sums]
    have h2 : (fun g : GaussianDistribution => 1 / (g.std_dev * g.std_dev))
        = fun g : GaussianDistribution => 1 / g.std_dev ^ 2 := by
      funext g
      rw [pow_two]
    have h3 : (fun g : GaussianDistribution =>
          g.mean * (1 / (g.std_dev * g.std_dev)))
        = fun g : GaussianDistribution => g.mean * (1 / g.std_dev ^ 2) := by
      funext g
      rw [pow_two]
    rw [h2, h3]
    simp

/-- Witness for C1 at the singleton standard-normal parent list. -/
theorem C1_multiply_gaussians_spec_witness :
    (∀ g ∈ [testLeaf], 0 < g.std_dev) ∧ [testLeaf] ≠ [] ∧
    multiply_gaussians [testLeaf]
      = (([testLeaf].map (fun g => g.mean * (1 / g.std_dev ^ 2))).sum
           / ([testLeaf].map (fun g => 1 / g.std_dev ^ 2)).sum,
         1 / ([testLeaf].map (fun g => 1 / g.std_dev ^ 2)).sum) := by
  have h1 : ∀ g ∈ [testLeaf], 0 < g.std_dev := by
    intro g hg
    rw [List.mem_singleton.mp hg]
    show (0 : ℝ) < 1
    norm_num
  exact ⟨h1, by simp,
    (C1_multiply_gaussians_spec [testLeaf] h1).2 (by simp)⟩

/-- C5: generate_points performs no n ≥ 2 guard at all — called with
num_points = 1 it divides by zero in the spacing formula (NaN in f64) and
still returns a 1-point list, and with num_points = 0 it returns the
empty list; in no case does it signal an invalid-argument condition (its
return type has no error channel). -/
theorem C5_generate_points_unguarded :
    (generate_points testLeaf 0 1 1).length = 1 ∧
    (generate_points testLeaf 0 1 0).length = 0 := by
  constructor
  · rw [generate_points, List.length_map, List.length_range]
  · rw [generate_points, List.length_map, List.length_range]

/-- C6: the snapshot codec round-trips losslessly — loading the saved
session reproduces the distribution map entry-for-entry (hence every
node's stored mean / std_dev as last computed, its is_product flag and
its parent_ids order), next_id and the three display flags. -/
theorem C6_snapshot_roundtrip (app target : PdfViewerApp) :
    (load_session target (save_session app)).distributions
        = app.distributions ∧
    (load_session target (save_session app)).next_id = app.next_id ∧
    (load_session target (save_session app)).show_shading
        = app.show_shading ∧
    (load_session target (save_session app)).shading_opacity
        = app.shading_opacity ∧
    (load_session target (save_session app)).show_std_markers
        = app.show_std_markers :=
  ⟨rfl, rfl, rfl, rfl, rfl⟩

/-- C9: evaluate signals the invalid parameter (embedded `none`, the
statrs unwrap panic) for σ ≤ 0, and for σ > 0 returns exactly the
Gaussian pdf 1/(σ√(2π)) · exp(-(x-μ)²/(2σ²)). -/
theorem C9_evaluate_spec (d : GaussianDistribution) (x : ℝ) :
    (d.std_dev ≤ 0 → evaluate d x = none) ∧
    (0 < d.std_dev →
      evaluate d x
        = some (1 / (d.std_dev * Real.sqrt (2 * Real.pi)) *
            Real.exp (-((x - d.mean) ^ 2) / (2 * d.std_dev ^ 2)))) := by
  constructor
  · intro h
    unfold evaluate
    rw [if_pos h]
  · intro h
    have hσ : d.std_dev ≠ 0 := ne_of_gt h
    unfold evaluate
    rw [if_neg (not_le.mpr h)]
    congr 1
    unfold gaussianPdf
    rw [show -(1 / 2) * ((x - d.mean) / d.std_dev) * ((x - d.mean) / d.std_dev)
          = -((x - d.mean) ^ 2) / (2 * d.std_dev ^ 2) from by
        field_simp
        ring]
    ring

/-- Witness for C9 at a σ = -1 node (failure branch) and the standard
normal (success branch), both evaluated at x = 0. -/
theorem C9_evaluate_spec_witness :
    (testBadLeaf.std_dev ≤ 0 ∧ evaluate testBadLeaf 0 = none) ∧
    ((0 : ℝ) < testLeaf.std_dev ∧
      evaluate testLeaf 0
        = some (1 / (testLeaf.std_dev * Real.sqrt (2 * Real.pi)) *
            Real.exp (-((0 - testLeaf.mean) ^ 2) /
              (2 * testLeaf.std_dev ^ 2)))) :=
  ⟨⟨by norm_num [testBadLeaf],
    (C9_evaluate_spec testBadLeaf 0).1 (by norm_num [testBadLeaf])⟩,
   ⟨by norm_num [testLeaf],
    (C9_evaluate_spec testLeaf 0).2 (by norm_num [testLeaf])⟩⟩

/-- Looking up the just-inserted key returns the inserted node. -/
theorem hmGet_insert_self (ds : List (ℕ × GaussianDistribution)) (k : ℕ)
    (v : GaussianDistribution) : hmGet (hmInsert ds k v) k = some v := by
  unfold hmInsert
  split
  · rename_i hs
    unfold hmGet
    induction ds with
    | nil => simp at hs
    | cons p t ih =>
        by_cases hk : (p.1 == k) = true
        · rw [List.map_cons, if_pos hk]
          rw [List.find?_cons_of_pos _ (by simp)]
          rfl
        · rw [List.map_cons, if_neg hk]
          have hkf : (p.1 == k) = false := by
            cases h : (p.1 == k)
            · rfl
            · exact absurd h hk
          simp only [List.find?_cons, hkf]
          apply ih
          simp only [List.find?_cons, hkf] at hs
          exact hs
  · unfold hmGet
    rename_i hs
    have hnone : ds.find? (fun p => p.1 == k) = none := by
      cases hf : ds.find? (fun p => p.1 == k) with
      | none => rfl
      | some p =>
          rw [hf] at hs
          simp at hs
    rw [List.find?_append, hnone]
    rw [List.find?_cons_of_pos _ (by simp)]
    rfl

/-- C7: the Multiply Selected fusion handler performs no mutation at all
when fewer than 2 of the requested parent ids resolve, and with at least
2 resolved parents it consumes exactly one fresh id, clears the
selection, and inserts under the old next_id a product node built by the
fusion formula over the resolved parents (parent_ids stored verbatim). -/
theorem C7_multiply_selected_spec (app : PdfViewerApp) :
    ((app.selected_for_multiplication.filterMap
        (hmGet app.distributions)).length < 2 →
      multiply_selected app = app) ∧
    (2 ≤ (app.selected_for_multiplication.filterMap
        (hmGet app.distributions)).length →
      (multiply_selected app).next_id = app.next_id + 1 ∧
      (multiply_selected app).selected_for_multiplication = [] ∧
      hmGet (multiply_selected app).distributions app.next_id
        = some (new_product app.next_id
            ("Product " ++ toString (app.next_id + 1))
            app.selected_for_multiplication
            (app.selected_for_multiplication.filterMap
              (hmGet app.distributions)))) := by
  constructor
  · intro hlt
    unfold multiply_selected
    split
    · dsimp only
      rw [if_neg (not_le.mpr hlt)]
    · rfl
  · intro hge
    have hsel : 2 ≤ app.selected_for_multiplication.length :=
      le_trans hge (List.length_filterMap_le _ _)
    unfold multiply_selected
    rw [if_pos hsel]
    dsimp only
    rw [if_pos hge]
    exact ⟨rfl, rfl, hmGet_insert_self app.distributions app.next_id _⟩

/-- Witness for C7 at a concrete two-leaf state with both leaves
selected. -/
theorem C7_multiply_selected_spec_witness :
    2 ≤ (fuseApp.selected_for_multiplication.filterMap
        (hmGet fuseApp.distributions)).length ∧
    ((multiply_selected fuseApp).next_id = fuseApp.next_id + 1 ∧
     (multiply_selected fuseApp).selected_for_multiplication = [] ∧
     hmGet (multiply_selected fuseApp).distributions fuseApp.next_id
       = some (new_product fuseApp.next_id
           ("Product " ++ toString (fuseApp.next_id + 1))
           fuseApp.selected_for_multiplication
           (fuseApp.selected_for_multiplication.filterMap
             (hmGet fuseApp.distributions)))) :=
  ⟨by simp [fuseApp, hmGet],
   (C7_multiply_selected_spec fuseApp).2 (by simp [fuseApp, hmGet])⟩

/-- A min-fold over projected entries is a lower bound for the initial
value and every projected element. -/
theorem foldl_min_proj_le (f : ℕ × GaussianDistribution → ℝ)
    (l : List (ℕ × GaussianDistribution)) :
    ∀ a : ℝ, l.foldl (fun b p => min b (f p)) a ≤ a ∧
      ∀ p ∈ l, l.foldl (fun b p => min b (f p)) a ≤ f p := by
  induction l with
  | nil =>
      intro a
      exact ⟨le_refl a, by simp⟩
  | cons q t ih =>
      intro a
      rw [List.foldl_cons]
      rcases ih (min a (f q)) with ⟨h1, h2⟩
      refine ⟨le_trans h1 (min_le_left _ _), ?_⟩
      intro p hp
      rcases List.mem_cons.mp hp with h | h
      · rw [h]
        exact le_trans h1 (min_le_right _ _)
      · exact h2 p h

/-- A min-fold over projected entries returns the initial value or one of
the projected elements. -/
theorem foldl_min_proj_mem (f : ℕ × GaussianDistribution → ℝ)
    (l : List (ℕ × GaussianDistribution)) :
    ∀ a : ℝ, l.foldl (fun b p => min b (f p)) a = a ∨
      ∃ p ∈ l, l.foldl (fun b p => min b (f p)) a = f p := by
  induction l with
  | nil =>
      intro a
      exact Or.inl rfl
  | cons q t ih =>
      intro a
      rw [List.foldl_cons]
      rcases ih (min a (f q)) with h | ⟨p, hp, h⟩
      · rcases min_choice a (f q) with hc | hc
        · exact Or.inl (by rw [h, hc])
        · exact Or.inr ⟨q, List.mem_cons_self q t, by rw [h, hc]⟩
      · exact Or.inr ⟨p, List.mem_cons_of_mem q hp, h⟩

/-- A max-fold over projected entries is an upper bound for the initial
value and every projected element. -/
theorem foldl_max_proj_le (f : ℕ × GaussianDistribution → ℝ)
    (l : List (ℕ × GaussianDistribution)) :
    ∀ a : ℝ, a ≤ l.foldl (fun b p => max b (f p)) a ∧
      ∀ p ∈ l, f p ≤ l.foldl (fun b p => max b (f p)) a := by
  induction l with
  | nil =>
      intro a
      exact ⟨le_refl a, by simp⟩
  | cons q t ih =>
      intro a
      rw [List.foldl_cons]
      rcases ih (max a (f q)) with ⟨h1, h2⟩
      refine ⟨le_trans (le_max_left _ _) h1, ?_⟩
      intro p hp
      rcases List.mem_cons.mp hp with h | h
      · rw [h]
        exact le_trans (le_max_right _ _) h1
      · exact h2 p h

/-- A max-fold over projected entries returns the initial value or one of
the projected elements. -/
theorem foldl_max_proj_mem (f : ℕ × GaussianDistribution → ℝ)
    (l : List (ℕ × GaussianDistribution)) :
    ∀ a : ℝ, l.foldl (fun b p => max b (f p)) a = a ∨
      ∃ p ∈ l, l.foldl (fun b p => max b (f p)) a = f p := by
  induction l with
  | nil =>
      intro a
      exact Or.inl rfl
  | cons q t ih =>
      intro a
      rw [List.foldl_cons]
      rcases ih (max a (f q)) with h | ⟨p, hp, h⟩
      · rcases max_choice a (f q) with hc | hc
        · exact Or.inl (by rw [h, hc])
        · exact Or.inr ⟨q, List.mem_cons_self q t, by rw [h, hc]⟩
      · exact Or.inr ⟨p, List.mem_cons_of_mem q hp, h⟩

/-- C8: auto_fit_view leaves the state untouched (produces no bounds) on
an empty node set; on a non-empty node set (all σ > 0) it sets x bounds
[min μ - 4·max σ, max μ + 4·max σ] and y bounds
[0, 1.1/(max σ·√(2π))], the min / max ranging over all nodes. -/
theorem C8_auto_fit_spec (app : PdfViewerApp) :
    (app.distributions = [] → auto_fit_view app = app) ∧
    (app.distributions ≠ [] →
      (∀ p ∈ app.distributions, 0 < p.2.std_dev) →
      ∃ mn mx ms : ℝ,
        mn ∈ app.distributions.map (fun p => p.2.mean) ∧
        mx ∈ app.distributions.map (fun p => p.2.mean) ∧
        ms ∈ app.distributions.map (fun p => p.2.std_dev) ∧
        (∀ m ∈ app.distributions.map (fun p => p.2.mean),
          mn ≤ m ∧ m ≤ mx) ∧
        (∀ s ∈ app.distributions.map (fun p => p.2.std_dev), s ≤ ms) ∧
        (auto_fit_view app).plot_bounds
          = some ((mn - 4 * ms, 0),
              (mx + 4 * ms, 1.1 / (ms * Real.sqrt (2 * Real.pi))))) := by
  constructor
  · intro h
    unfold auto_fit_view
    rw [h]
  · intro hne hσ
    obtain ⟨d0, rest, hds⟩ : ∃ d0 rest, app.distributions = d0 :: rest := by
      cases hd : app.distributions with
      | nil => exact absurd hd hne
      | cons a l => exact ⟨a, l, rfl⟩
    have hd0 : d0 ∈ app.distributions := by
      rw [hds]
      exact List.mem_cons_self d0 rest
    refine ⟨rest.foldl (fun a p => min a p.2.mean) d0.2.mean,
            rest.foldl (fun a p => max a p.2.mean) d0.2.mean,
            (d0 :: rest).foldl (fun a p => max a p.2.std_dev) 0,
            ?_, ?_, ?_, ?_, ?_, ?_⟩
    · rcases foldl_min_proj_mem (fun p => p.2.mean) rest d0.2.mean with h | ⟨p, hp, h⟩
      · rw [h]
        exact List.mem_map.mpr ⟨d0, hd0, rfl⟩
      · rw [h]
        exact List.mem_map.mpr ⟨p, by rw [hds]; exact List.mem_cons_of_mem d0 hp, rfl⟩
    · rcases foldl_max_proj_mem (fun p => p.2.mean) rest d0.2.mean with h | ⟨p, hp, h⟩
      · rw [h]
        exact List.mem_map.mpr ⟨d0, hd0, rfl⟩
      · rw [h]
        exact List.mem_map.mpr ⟨p, by rw [hds]; exact List.mem_cons_of_mem d0 hp, rfl⟩
    · rcases foldl_max_proj_mem (fun p => p.2.std_dev) (d0 :: rest) 0 with h | ⟨p, hp, h⟩
      · exfalso
        have h1 : d0.2.std_dev
            ≤ (d0 :: rest).foldl (fun a p => max a p.2.std_dev) 0 :=
          (foldl_max_proj_le (fun p => p.2.std_dev) (d0 :: rest) 0).2 d0
            (List.mem_cons_self d0 rest)
        have h2 : 0 < d0.2.std_dev := hσ d0 hd0
        rw [h] at h1
        linarith
      · rw [h]
        exact List.mem_map.mpr ⟨p, by rw [hds]; exact hp, rfl⟩
    · intro m hm
      rcases List.mem_map.mp hm with ⟨p, hp, rfl⟩
      rw [hds] at hp
      rcases List.mem_cons.mp hp with h | h
      · rw [h]
        exact ⟨(foldl_min_proj_le (fun p => p.2.mean) rest d0.2.mean).1,
               (foldl_max_proj_le (fun p => p.2.mean) rest d0.2.mean).1⟩
      · exact ⟨(foldl_min_proj_le (fun p => p.2.mean) rest d0.2.mean).2 p h,
               (foldl_max_proj_le (fun p => p.2.mean) rest d0.2.mean).2 p h⟩
    · intro s hs
      rcases List.mem_map.mp hs with ⟨p, hp, rfl⟩
      rw [hds] at hp
      exact (foldl_max_proj_le (fun p => p.2.std_dev) (d0 :: rest) 0).2 p hp
    · unfold auto_fit_view
      rw [hds]
      dsimp only
      refine congrArg some ?_
      refine congrArg₂ Prod.mk rfl ?_
      refine congrArg₂ Prod.mk rfl ?_
      ring

/-- Witness for C8 at the single-leaf state. -/
theorem C8_auto_fit_spec_witness :
    (leafApp.distributions ≠ [] ∧
     (∀ p ∈ leafApp.distributions, 0 < p.2.std_dev)) ∧
    (∃ mn mx ms : ℝ,
      mn ∈ leafApp.distributions.map (fun p => p.2.mean) ∧
      mx ∈ leafApp.distributions.map (fun p => p.2.mean) ∧
      ms ∈ leafApp.distributions.map (fun p => p.2.std_dev) ∧
      (∀ m ∈ leafApp.distributions.map (fun p => p.2.mean),
        mn ≤ m ∧ m ≤ mx) ∧
      (∀ s ∈ leafApp.distributions.map (fun p => p.2.std_dev), s ≤ ms) ∧
      (auto_fit_view leafApp).plot_bounds
        = some ((mn - 4 * ms, 0),
            (mx + 4 * ms, 1.1 / (ms * Real.sqrt (2 * Real.pi))))) := by
  have h1 : leafApp.distributions ≠ [] := by simp [leafApp]
  have h2 : ∀ p ∈ leafApp.distributions, 0 < p.2.std_dev := by
    intro p hp
    have : p = (0, testLeaf) := by simpa [leafApp] using hp
    rw [this]
    show (0 : ℝ) < 1
    norm_num
  exact ⟨⟨h1, h2⟩, (C8_auto_fit_spec leafApp).2 h1 h2⟩

/-- The statrs Normal pdf is strictly positive for σ > 0. -/
theorem gaussianPdf_pos (μ σ x : ℝ) (hσ : 0 < σ) : 0 < gaussianPdf μ σ x := by
  unfold gaussianPdf
  apply div_pos (Real.exp_pos _)
  apply mul_pos _ hσ
  apply Real.sqrt_pos.mpr
  positivity

/-- C4: for σ > 0, x_min < x_max and any n, generate_shading_polygon
returns exactly the corner (x_min, 0), then the n interior samples at
x_i = x_min + (x_max - x_min)·i/(n+1) for i = 1..n, then the corner
(x_max, 0) — hence n + 2 vertices in total; for n = 1 the single interior
vertex is the midpoint sample; the interior vertices lie strictly inside
(x_min, x_max) with y > 0 and are strictly increasing in x. -/
theorem C4_shading_polygon_spec (d : GaussianDistribution)
    (x_min x_max : ℝ) (n : ℕ) (hσ : 0 < d.std_dev) (hx : x_min < x_max) :
    generate_shading_polygon d x_min x_max n
      = ((x_min, (0 : ℝ)) ::
          (List.range' 1 n).map (fun (i : ℕ) =>
            (x_min + (x_max - x_min) * (i : ℝ) / ((n : ℝ) + 1),
             gaussianPdf d.mean d.std_dev
               (x_min + (x_max - x_min) * (i : ℝ) / ((n : ℝ) + 1)))))
        ++ [(x_max, 0)] ∧
    (generate_shading_polygon d x_min x_max n).length = n + 2 ∧
    (n = 1 → generate_shading_polygon d x_min x_max n
       = [(x_min, 0),
          ((x_min + x_max) / 2,
           gaussianPdf d.mean d.std_dev ((x_min + x_max) / 2)),
          (x_max, 0)]) ∧
    (∀ q ∈ (List.range' 1 n).map (fun (i : ℕ) =>
          (x_min + (x_max - x_min) * (i : ℝ) / ((n : ℝ) + 1),
           gaussianPdf d.mean d.std_dev
             (x_min + (x_max - x_min) * (i : ℝ) / ((n : ℝ) + 1)))),
      (x_min < q.1 ∧ q.1 < x_max) ∧ 0 < q.2) ∧
    ((List.range' 1 n).map (fun (i : ℕ) =>
        x_min + (x_max - x_min) * (i : ℝ) / ((n : ℝ) + 1))).Pairwise
      (· < ·) := by
  have hd : (0 : ℝ) < x_max - x_min := sub_pos.mpr hx
  have hnpos : (0 : ℝ) < (n : ℝ) + 1 := by positivity
  have hE : generate_shading_polygon d x_min x_max n
      = ((x_min, (0 : ℝ)) ::
          (List.range' 1 n).map (fun (i : ℕ) =>
            (x_min + (x_max - x_min) * (i : ℝ) / ((n : ℝ) + 1),
             gaussianPdf d.mean d.std_dev
               (x_min + (x_max - x_min) * (i : ℝ) / ((n : ℝ) + 1)))))
        ++ [(x_max, 0)] := by
    unfold generate_shading_polygon
    rcases Nat.lt_or_ge n 2 with hn | hn
    · interval_cases n
      · simp
      · rw [if_pos rfl]
        have hx1 : x_min + (x_max - x_min) * ((1 : ℕ) : ℝ)
              / (((1 : ℕ) : ℝ) + 1)
            = (x_min + x_max) / 2 := by
          push_cast
          ring
        simp only [List.range'_one, List.map_cons, List.map_nil, hx1]
    · rw [if_neg (by omega), if_pos (by omega)]
  refine ⟨hE, ?_, ?_, ?_, ?_⟩
  · rw [hE]
    simp [List.length_range']
  · intro h1
    subst h1
    rw [hE]
    have hx1 : x_min + (x_max - x_min) * ((1 : ℕ) : ℝ)
          / (((1 : ℕ) : ℝ) + 1)
        = (x_min + x_max) / 2 := by
      push_cast
      ring
    simp only [List.range'_one, List.map_cons, List.map_nil, hx1]
    rfl
  · intro q hq
    rcases List.mem_map.mp hq with ⟨i, hi, rfl⟩
    rw [List.mem_range'] at hi
    rcases hi with ⟨j, hj, rfl⟩
    have hi1 : (1 : ℕ) ≤ 1 + 1 * j := by omega
    have hi2 : 1 + 1 * j ≤ n := by omega
    have hipos : (0 : ℝ) < ((1 + 1 * j : ℕ) : ℝ) := by
      exact_mod_cast Nat.lt_of_lt_of_le Nat.zero_lt_one hi1
    have hstep : (0 : ℝ)
        < (x_max - x_min) * ((1 + 1 * j : ℕ) : ℝ) / ((n : ℝ) + 1) :=
      div_pos (mul_pos hd hipos) hnpos
    have hupper : (x_max - x_min) * ((1 + 1 * j : ℕ) : ℝ) / ((n : ℝ) + 1)
        < x_max - x_min := by
      rw [div_lt_iff hnpos]
      have hcast : ((1 + 1 * j : ℕ) : ℝ) < (n : ℝ) + 1 := by
        exact_mod_cast Nat.lt_succ_of_le hi2
      calc (x_max - x_min) * ((1 + 1 * j : ℕ) : ℝ)
          < (x_max - x_min) * ((n : ℝ) + 1) :=
            mul_lt_mul_of_pos_left hcast hd
        _ = (x_max - x_min) * ((n : ℝ) + 1) := rfl
    refine ⟨⟨by linarith, by linarith⟩, ?_⟩
    exact gaussianPdf_pos _ _ _ hσ
  · have hrp : (List.range' 1 n).Pairwise (fun a b : ℕ => a < b) :=
      List.pairwise_lt_range' 1 n
    rw [List.pairwise_map]
    refine hrp.imp ?_
    intro a b hab
    have hcast : (a : ℝ) < (b : ℝ) := by exact_mod_cast hab
    have h1 : (x_max - x_min) * (a : ℝ) < (x_max - x_min) * (b : ℝ) :=
      mul_lt_mul_of_pos_left hcast hd
    have h2 : (x_max - x_min) * (a : ℝ) / ((n : ℝ) + 1)
        < (x_max - x_min) * (b : ℝ) / ((n : ℝ) + 1) := by gcongr
    linarith

/-- Witness for C4: the standard normal over [0, 1] with n = 2 interior
samples has 2 + 2 polygon vertices. -/
theorem C4_shading_polygon_spec_witness :
    ((0 : ℝ) < testLeaf.std_dev ∧ (0 : ℝ) < 1) ∧
    (generate_shading_polygon testLeaf 0 1 2).length = 2 + 2 :=
  ⟨⟨by norm_num [testLeaf], by norm_num⟩,
   (C4_shading_polygon_spec testLeaf 0 1 2 (by norm_num [testLeaf])
     (by norm_num)).2.1⟩

/-- C2 counterexample: on the chain leaf (μ=2) → product P1 (parents
[0]) → product P2 (parents [1]), all stored with stale values, the first
recomputation pass gives P2 mean 0 (it read P1's old value) and the
second pass gives P2 mean 2 — repeated recomputation with unchanged
leaves is not idempotent on chained products, refuting the claim as
stated over every graph state. -/
theorem C2_counterexample :
    (hmGet (update_product_distributions
        (update_product_distributions chainApp)).distributions 2).map
          (fun d => d.mean)
      ≠ (hmGet (update_product_distributions chainApp).distributions 2).map
          (fun d => d.mean) := by
  show (hmGet (update_products
        (update_products chainApp.distributions)) 2).map (fun d => d.mean)
      ≠ (hmGet (update_products chainApp.distributions) 2).map
          (fun d => d.mean)
  have h0 : chainApp.distributions
      = [(0, chainLeaf), (1, chainMid), (2, chainTop)] := rfl
  rw [h0]
  have h1 : update_products [(0, chainLeaf), (1, chainMid), (2, chainTop)]
      = [(0, chainLeaf),
         (1, { chainMid with mean := 2, std_dev := 1 }),
         (2, { chainTop with mean := 0, std_dev := 1 })] := by
    simp +decide [update_products, collect_updates, collect_fn, hmGet,
      multiply_gaussians, apply_update, touch_entry, chainLeaf,
      chainMid, chainTop, Real.sqrt_one]
  have h2 : update_products (update_products
        [(0, chainLeaf), (1, chainMid), (2, chainTop)])
      = [(0, chainLeaf),
         (1, { chainMid with mean := 2, std_dev := 1 }),
         (2, { chainTop with mean := 2, std_dev := 1 })] := by
    rw [h1]
    simp +decide [update_products, collect_updates, collect_fn, hmGet,
      multiply_gaussians, apply_update, touch_entry, chainLeaf,
      chainMid, chainTop, Real.sqrt_one]
  rw [h2, h1]
  simp +decide [hmGet, chainTop]
